import Mathlib

/-!
Verification of the ATR-percentile core (src/app.py) against its specification.

The program computes, for a price series (High/Low/Close columns), a True Range
series, an exponentially smoothed ATR series, a rolling-window percentile rank
of the ATR, and a final binary score.  Numbers are modelled by `ℚ`; the pandas
missing value NaN is modelled by `Option ℚ` (`none` = NaN).  Fallible steps
return `Except Err`.
-/

namespace ATRPercentile

/-- Error taxonomy of the pipeline: `invalidParameter` models the exceptions
raised for a non-positive ATR length (division by zero at `1/atr_length`, or
the ewm alpha-range check) and for `min_periods > window` in `rolling`;
`emptySeries` is the name the spec gives to an empty-input failure. -/
inductive Err where
  | invalidParameter : Err
  | emptySeries : Err
deriving DecidableEq

/-- Row-wise combination of three columns, as in `df[[c1, c2, c3]].max(axis=1)`
style operations over aligned columns. -/
def zipWith3 {α β γ δ : Type} (f : α → β → γ → δ) : List α → List β → List γ → List δ
  | a :: as, b :: bs, c :: cs => f a b c :: zipWith3 f as bs cs
  | _, _, _ => []

/-- Model of `series.shift(1)`: a leading NaN, every other value moved down one
index, the last value discarded (length preserved, empty for empty input). -/
def shiftOne (xs : List ℚ) : List (Option ℚ) :=
  (none :: xs.map some).dropLast

/-- Row maximum of the three True-Range candidates, skipping NaN, as
`df[[tr1, tr2, tr3]].max(axis=1)` does (pandas `max` has `skipna=True`);
the first candidate `High - Low` is always a number. -/
def rowMax (a : ℚ) : Option ℚ → Option ℚ → ℚ
  | some b, some c => max a (max b c)
  | some b, none => max a b
  | none, some c => max a c
  | none, none => a

/-- True Range series, columnwise as in src/app.py lines 20-23:
`tr1 = High - Low`, `tr2 = |High - Close.shift(1)|`,
`tr3 = |Low - Close.shift(1)|`, `tr = max(tr1, tr2, tr3)` skipping NaN. -/
def trueRangeSeries (high low close : List ℚ) : List ℚ :=
  zipWith3 rowMax
    (List.zipWith (fun h l => h - l) high low)
    (List.zipWith (fun h c => c.map (fun p => |h - p|)) high (shiftOne close))
    (List.zipWith (fun l c => c.map (fun p => |l - p|)) low (shiftOne close))

/-- Tail of the exponentially weighted mean with `adjust=False`:
each output is `a * x + (1 - a) * previous`. -/
def ewmFrom (a prev : ℚ) : List ℚ → List ℚ
  | [] => []
  | x :: xs => (a * x + (1 - a) * prev) :: ewmFrom a (a * x + (1 - a) * prev) xs

/-- Model of `series.ewm(alpha=a, adjust=False).mean()` on a series without
NaN: the first output is the first input, then the recursive smoothing. -/
def ewmMean (a : ℚ) : List ℚ → List ℚ
  | [] => []
  | x :: xs => x :: ewmFrom a x xs

/-- Trailing window of a rolling computation at index `i`: the slice ending at
`i` inclusive, of length `min (i+1) W`. -/
def windowAt (W : ℕ) (xs : List ℚ) (i : ℕ) : List ℚ :=
  (xs.take (i + 1)).drop (i + 1 - W)

/-- The `percentile_rank` closure of src/app.py lines 29-33: NaN when fewer
than 20 observations, otherwise the share (in percent) of window elements that
are `≤` the last element of the window, `(series <= current).sum()/len(series)*100`. -/
def percentile_rank (s : List ℚ) : Option ℚ :=
  if s.length < 20 then none
  else
    s.getLast?.map (fun v =>
      (((s.filter (fun x => decide (x ≤ v))).length : ℚ)) / (s.length : ℚ) * 100)

/-- Model of `series.rolling(window=W, min_periods=minp).apply(f)` on a series
without NaN: pandas rejects `minp > W` with a ValueError before computing, and
emits NaN (without calling `f`) at indices whose window holds fewer than
`minp` observations. -/
def rolling_apply (W minp : ℕ) (f : List ℚ → Option ℚ) (xs : List ℚ) :
    Except Err (List (Option ℚ)) :=
  if W < minp then .error .invalidParameter
  else .ok ((List.range xs.length).map (fun i =>
    if (windowAt W xs i).length < minp then none else f (windowAt W xs i)))

/-- Numeric core of `calculate_atr_percentile` (src/app.py lines 9-43) on the
three price columns: True Range, then `ewm(alpha=1/atr_length, adjust=False)`
(a non-positive `atr_length` raises before any smoothed value is produced:
`1/0` is a ZeroDivisionError and a negative alpha fails ewm validation), then
the rolling percentile rank with `min_periods=20`.  Returns the `atr` and
`atr_percentile` columns. -/
def calculate_atr_percentile (high low close : List ℚ) (atr_length : ℤ)
    (lookback_days : ℕ) : Except Err (List ℚ × List (Option ℚ)) :=
  if atr_length ≤ 0 then .error .invalidParameter
  else
    let atr := ewmMean (1 / (atr_length : ℚ)) (trueRangeSeries high low close)
    match rolling_apply lookback_days 20 percentile_rank atr with
    | .error e => .error e
    | .ok pct => .ok (atr, pct)

/-- Result of `get_atr_score`: the tuple `(score, percentile_value, atr_value)`
with `None` modelled as `none`. -/
structure ScoreResult where
  score : ℕ
  percentile : Option ℚ
  atrValue : Option ℚ
deriving DecidableEq

/-- Nearest integer with ties to even, the rounding the builtin Python `round`
documents. -/
def roundHalfEven (x : ℚ) : ℤ :=
  if x - Int.floor x < 1 / 2 then Int.floor x
  else if (1 : ℚ) / 2 < x - Int.floor x then Int.floor x + 1
  else if 2 ∣ Int.floor x then Int.floor x else Int.floor x + 1

/-- Model of the Python call `round(x, n)`: round `x` to `n` decimal places. -/
def roundTo (n : ℕ) (x : ℚ) : ℚ :=
  (roundHalfEven (x * 10 ^ n) : ℚ) / 10 ^ n

/-- Model of `get_atr_score` (src/app.py lines 45-63) on the aligned `atr` and
`atr_percentile` columns: an empty frame returns the default result
`(0, None, None)` (the source `return`s it, raising nothing); a NaN last
percentile also returns the default; otherwise score is `1` iff the last
percentile is strictly above 50, with the rounded display values. -/
def get_atr_score (atr : List ℚ) (pct : List (Option ℚ)) : Except Err ScoreResult :=
  if pct.length = 0 then .ok ⟨0, none, none⟩
  else
    match pct.getLast?, atr.getLast? with
    | some (some p), some a =>
        .ok ⟨if 50 < p then 1 else 0, some (roundTo 1 p), some (roundTo 4 a)⟩
    | _, _ => .ok ⟨0, none, none⟩

/-- A pandas DataFrame, modelled as an ordered association list from column
name to column values (cells `Option ℚ`, `none` = NaN). -/
abbrev Frame := List (String × List (Option ℚ))

/-- Column read `df[name]` (theorems about frames assume the column exists, as
pandas raises KeyError otherwise). -/
def getCol (df : Frame) (name : String) : List (Option ℚ) :=
  (List.lookup name df).getD []

/-- Column write `df[name] = v`: replaces an existing column in place,
otherwise appends a new column at the end, as pandas does. -/
def setCol : Frame → String → List (Option ℚ) → Frame
  | [], n, v => [(n, v)]
  | (m, w) :: df, n, v => if m = n then (n, v) :: df else (m, w) :: setCol df n v

/-- Model of `df.drop(ns, axis=1)`. -/
def dropCols (df : Frame) (ns : List String) : Frame :=
  df.filter (fun p => decide (p.1 ∉ ns))

/-- Values of a column that contains no NaN. -/
def denone (xs : List (Option ℚ)) : List ℚ :=
  xs.filterMap id

/-- Frame-level `calculate_atr_percentile` (src/app.py lines 9-43), for valid
input frames whose High/Low/Close columns contain no NaN: the function copies
the frame of the caller (line 17, so the frame held by the caller is never modified and the
embedding is a pure function of the frame value), assigns the working columns
`tr1`, `tr2`, `tr3`, `tr`, then `atr` and `atr_percentile`, and drops the four
working columns before returning. -/
def calculate_atr_percentile_frame (df : Frame) (atr_length : ℤ)
    (lookback_days : ℕ) : Except Err Frame :=
  let high := denone (getCol df "High")
  let low := denone (getCol df "Low")
  let close := denone (getCol df "Close")
  let tr := trueRangeSeries high low close
  if atr_length ≤ 0 then .error .invalidParameter
  else
    let atr := ewmMean (1 / (atr_length : ℚ)) tr
    match rolling_apply lookback_days 20 percentile_rank atr with
    | .error e => .error e
    | .ok pct =>
      let d1 := setCol df "tr1" ((List.zipWith (fun h l => h - l) high low).map some)
      let d2 := setCol d1 "tr2" (List.zipWith (fun h c => c.map (fun p => |h - p|)) high (shiftOne close))
      let d3 := setCol d2 "tr3" (List.zipWith (fun l c => c.map (fun p => |l - p|)) low (shiftOne close))
      let d4 := setCol d3 "tr" (tr.map some)
      let d5 := setCol d4 "atr" (atr.map some)
      let d6 := setCol d5 "atr_percentile" pct
      .ok (dropCols d6 ["tr1", "tr2", "tr3", "tr"])

/-! ## Helper lemmas -/

theorem ewmFrom_length (a : ℚ) : ∀ (prev : ℚ) (xs : List ℚ),
    (ewmFrom a prev xs).length = xs.length
  | _, [] => rfl
  | prev, x :: xs => by simp [ewmFrom, ewmFrom_length a _ xs]

theorem ewmMean_length (a : ℚ) (xs : List ℚ) : (ewmMean a xs).length = xs.length := by
  cases xs with
  | nil => rfl
  | cons x xs => simp [ewmMean, ewmFrom_length]

theorem ewmFrom_one (prev : ℚ) : ∀ (xs : List ℚ), ewmFrom 1 prev xs = xs
  | [] => rfl
  | x :: xs => by simp [ewmFrom, ewmFrom_one x xs]

theorem ewmFrom_succ (a : ℚ) (xs : List ℚ) :
    ∀ (prev : ℚ) (i : ℕ) (x q : ℚ),
      xs[i + 1]? = some x → (ewmFrom a prev xs)[i]? = some q →
      (ewmFrom a prev xs)[i + 1]? = some (a * x + (1 - a) * q) := by
  induction xs with
  | nil => intro prev i x q hx _; simp at hx
  | cons y ys ih =>
    intro prev i x q hx hq
    match i with
    | 0 =>
      simp only [List.getElem?_cons_succ] at hx
      simp only [ewmFrom, List.getElem?_cons_zero, Option.some.injEq] at hq
      cases ys with
      | nil => simp at hx
      | cons z zs =>
        simp only [List.getElem?_cons_zero, Option.some.injEq] at hx
        subst hx; subst hq
        simp [ewmFrom]
    | j + 1 =>
      simp only [List.getElem?_cons_succ] at hx
      simp only [ewmFrom, List.getElem?_cons_succ] at hq ⊢
      exact ih _ j x q hx hq

/-! ## C2: the ATR smoothing recursion -/

/-- C2: for every True Range series and positive integer period `L`, the ATR
series seeds with `ATR[0] = TrueRange[0]` and satisfies
`ATR[i] = α·TrueRange[i] + (1−α)·ATR[i−1]` for `i ≥ 1`, with `α = 1/L`. -/
theorem atr_recursion_spec (tr : List ℚ) (L : ℤ) (hL : 1 ≤ L) :
    (ewmMean (1 / (L : ℚ)) tr)[0]? = tr[0]? ∧
    ∀ (i : ℕ) (x q : ℚ), tr[i + 1]? = some x →
      (ewmMean (1 / (L : ℚ)) tr)[i]? = some q →
      (ewmMean (1 / (L : ℚ)) tr)[i + 1]? =
        some ((1 / (L : ℚ)) * x + (1 - 1 / (L : ℚ)) * q) := by
  cases tr with
  | nil => exact ⟨rfl, fun i x q hx _ => by simp at hx⟩
  | cons t ts =>
    refine ⟨by simp [ewmMean], ?_⟩
    intro i x q hx hq
    match i with
    | 0 =>
      simp only [List.getElem?_cons_succ] at hx
      simp only [ewmMean, List.getElem?_cons_zero, Option.some.injEq] at hq
      cases ts with
      | nil => simp at hx
      | cons z zs =>
        simp only [List.getElem?_cons_zero, Option.some.injEq] at hx
        subst hx; subst hq
        simp [ewmMean, ewmFrom]
    | j + 1 =>
      simp only [List.getElem?_cons_succ] at hx
      simp only [ewmMean, List.getElem?_cons_succ] at hq ⊢
      exact ewmFrom_succ (1 / (L : ℚ)) ts t j x q hx hq

/-- C2 witness: on the True Range series `[4, 8]` with `L = 2` the second ATR
value is `(1/2)·8 + (1/2)·4 = 6`. -/
theorem atr_recursion_spec_witness :
    (ewmMean (1 / ((2 : ℤ) : ℚ)) [4, 8])[0 + 1]? =
      some ((1 / ((2 : ℤ) : ℚ)) * 8 + (1 - 1 / ((2 : ℤ) : ℚ)) * 4) :=
  (atr_recursion_spec [4, 8] 2 (by decide)).2 0 8 4 rfl rfl

/-! ## C9: period 1 disables smoothing -/

/-- C9: with ATR period `L = 1` the smoothing factor is `α = 1/1 = 1` and the
smoother is the identity: `ATR[i] = TrueRange[i]` at every index. -/
theorem atr_length_one_identity (tr : List ℚ) :
    ewmMean (1 / ((1 : ℤ) : ℚ)) tr = tr := by
  have h1 : (1 : ℚ) / ((1 : ℤ) : ℚ) = 1 := by norm_num
  rw [h1]
  cases tr with
  | nil => rfl
  | cons t ts => simp [ewmMean, ewmFrom_one]

/-! ## C6: non-positive ATR length is rejected -/

/-- C6: for every input series and every ATR period `L ≤ 0` the computation
fails with an InvalidParameter error and produces no output (in the source,
`1/0` raises ZeroDivisionError and a negative alpha fails the ewm validation,
both before any smoothed value exists; the data held by the caller is untouched). -/
theorem atr_invalid_length_error (high low close : List ℚ) (L : ℤ) (W : ℕ)
    (hL : L ≤ 0) :
    calculate_atr_percentile high low close L W = .error .invalidParameter := by
  simp [calculate_atr_percentile, hL]

/-- C6 witness: `L = 0` on a one-bar series is rejected. -/
theorem atr_invalid_length_error_witness :
    calculate_atr_percentile [2] [1] [1] 0 126 = .error .invalidParameter :=
  atr_invalid_length_error [2] [1] [1] 0 126 (by decide)

/-! ## C7: behaviour on an empty frame -/

/-- C7 counterexample: on series of length 0 the score extractor does NOT
fail with an EmptySeries error — the source `return`s the default tuple
`(0, None, None)` without raising, so the result is an `ok` value and differs
from every error. -/
theorem empty_score_counterexample :
    get_atr_score [] [] ≠ Except.error Err.emptySeries ∧
    get_atr_score [] [] ≠ Except.error Err.invalidParameter ∧
    get_atr_score [] [] = Except.ok ⟨0, none, none⟩ :=
  ⟨fun h => Except.noConfusion h, fun h => Except.noConfusion h, rfl⟩

/-- C7 amended: on the empty pair of series the score extractor returns the
default result `{score: 0, percentile: undefined, atrValue: undefined}`
(the same value as for an undefined last percentile) instead of failing. -/
theorem empty_score_amended :
    get_atr_score [] [] = Except.ok ⟨0, none, none⟩ := rfl

/-! ## C4: the score extractor -/

/-- C4: for every non-empty pair of aligned ATR and percentile series, the
extractor uses only the last elements: an undefined last percentile yields the
default result; otherwise the score is 1 exactly when the last percentile is
strictly greater than 50 (so exactly 50 scores 0), the percentile is rounded
to 1 decimal place and the ATR value to 4 decimal places. -/
theorem score_extractor_spec (atr : List ℚ) (pct : List (Option ℚ))
    (hlen : atr.length = pct.length) (hpos : 0 < pct.length) :
    (pct.getLast? = some none → get_atr_score atr pct = .ok ⟨0, none, none⟩) ∧
    (∀ (p a : ℚ), pct.getLast? = some (some p) → atr.getLast? = some a →
      get_atr_score atr pct =
        .ok ⟨if 50 < p then 1 else 0, some (roundTo 1 p), some (roundTo 4 a)⟩) := by
  have hne : ¬ pct.length = 0 := by omega
  constructor
  · intro hnone
    simp only [get_atr_score, if_neg hne, hnone]
  · intro p a hp ha
    simp only [get_atr_score, if_neg hne, hp, ha]

/-- C4 witness: last percentile `60 > 50` on a one-row frame scores 1 with the
rounded display values. -/
theorem score_extractor_spec_witness :
    get_atr_score [(1 : ℚ)] [some (60 : ℚ)] =
      .ok ⟨if (50 : ℚ) < 60 then 1 else 0, some (roundTo 1 60), some (roundTo 4 1)⟩ :=
  (score_extractor_spec [(1 : ℚ)] [some (60 : ℚ)] rfl (by decide)).2 60 1 rfl rfl

/-! ## Window and percentile-rank lemmas -/

theorem windowAt_length (W : ℕ) (xs : List ℚ) (i : ℕ) (hi : i < xs.length) :
    (windowAt W xs i).length = min (i + 1) W := by
  unfold windowAt
  rw [List.length_drop, List.length_take]
  omega

theorem windowAt_getLast (W : ℕ) (xs : List ℚ) (i : ℕ)
    (hi : i < xs.length) (hW : 1 ≤ W) :
    (windowAt W xs i).getLast? = some xs[i] := by
  unfold windowAt
  rw [List.getLast?_eq_getElem?, List.length_drop, List.length_take,
    Nat.min_eq_left (by omega), List.getElem?_drop]
  have hidx : i + 1 - W + (i + 1 - (i + 1 - W) - 1) = i := by omega
  rw [hidx, List.getElem?_take_of_lt (by omega), List.getElem?_eq_getElem hi]

theorem percentile_rank_eq (s : List ℚ) (v : ℚ) (h20 : ¬ s.length < 20)
    (hlast : s.getLast? = some v) :
    percentile_rank s =
      some ((((s.filter (fun x => decide (x ≤ v))).length : ℚ)) / (s.length : ℚ) * 100) := by
  unfold percentile_rank
  rw [if_neg h20, hlast]
  rfl

theorem percentile_rank_mem_Ioc (s : List ℚ) (v : ℚ)
    (h : percentile_rank s = some v) : 0 < v ∧ v ≤ 100 := by
  unfold percentile_rank at h
  by_cases h20 : s.length < 20
  · rw [if_pos h20] at h; exact absurd h (by simp)
  · rw [if_neg h20] at h
    cases hlast : s.getLast? with
    | none => rw [hlast] at h; exact absurd h (by simp)
    | some w =>
      rw [hlast] at h
      simp only [Option.map, Option.some.injEq] at h
      subst h
      have hpos : 0 < s.length := by omega
      have hw : w ∈ s := List.mem_of_getLast?_eq_some hlast
      have hmem : w ∈ s.filter (fun x => decide (x ≤ w)) := by
        rw [List.mem_filter]; exact ⟨hw, by simp⟩
      have hcount : 0 < (s.filter (fun x => decide (x ≤ w))).length :=
        List.length_pos_of_mem hmem
      have hle : (s.filter (fun x => decide (x ≤ w))).length ≤ s.length :=
        List.length_filter_le _ _
      have hlQ : (0 : ℚ) < (s.length : ℚ) := by exact_mod_cast hpos
      constructor
      · apply mul_pos
        · apply div_pos
          · exact_mod_cast hcount
          · exact hlQ
        · norm_num
      · rw [div_mul_eq_mul_div, div_le_iff₀ hlQ]
        have hleQ : ((s.filter (fun x => decide (x ≤ w))).length : ℚ) ≤ (s.length : ℚ) := by
          exact_mod_cast hle
        linarith

/-! ## C5: defined percentile values lie in (0, 100] -/

/-- C5: wherever the trailing window holds at least 20 observations, the
percentile value is defined and lies in the half-open interval `(0, 100]`:
the `≤` comparison always counts the current element itself, so the value is
never 0, and it is at most 100. -/
theorem percentile_range_invariant (xs : List ℚ) (W i : ℕ) (res : List (Option ℚ))
    (hW : 20 ≤ W) (hres : rolling_apply W 20 percentile_rank xs = .ok res)
    (hi : i < xs.length) (hwin : 20 ≤ min (i + 1) W) :
    ∃ v : ℚ, res[i]? = some (some v) ∧ 0 < v ∧ v ≤ 100 := by
  unfold rolling_apply at hres
  rw [if_neg (by omega)] at hres
  injection hres with hres
  subst hres
  have hlen : (windowAt W xs i).length = min (i + 1) W := windowAt_length W xs i hi
  have hb : i < ((List.range xs.length).map (fun k =>
      if (windowAt W xs k).length < 20 then none else percentile_rank (windowAt W xs k))).length := by
    simpa using hi
  rw [List.getElem?_eq_getElem hb, List.getElem_map, List.getElem_range]
  rw [if_neg (by omega)]
  have hlast := windowAt_getLast W xs i hi (by omega)
  have hpr := percentile_rank_eq (windowAt W xs i) (xs[i]) (by omega) hlast
  rw [hpr]
  exact ⟨_, rfl, percentile_rank_mem_Ioc _ _ hpr⟩

/-- C5 witness: on 20 equal ATR values with `W = 20`, index 19 carries a
defined percentile strictly above 0 and at most 100. -/
theorem percentile_range_invariant_witness :
    ∃ v : ℚ, ((List.range (List.replicate 20 (0 : ℚ)).length).map (fun k =>
        if (windowAt 20 (List.replicate 20 (0 : ℚ)) k).length < 20 then none
        else percentile_rank (windowAt 20 (List.replicate 20 (0 : ℚ)) k)))[19]? =
      some (some v) ∧ 0 < v ∧ v ≤ 100 :=
  percentile_range_invariant (List.replicate 20 (0 : ℚ)) 20 19 _
    (by decide) rfl (by decide) (by decide)

/-! ## C1: the rolling percentile-rank computation -/

/-- C1: at every index `i`, the window is the trailing slice ending at `i`
inclusive of length `min (i+1) W`; if that length is below the minimum sample
count 20 the element is undefined, and otherwise it equals 100 times the count
of window elements `≤ ATR[i]`, divided by the window length (an empirical CDF
rank with no interpolation). -/
theorem rolling_percentile_rank_spec (xs : List ℚ) (W i : ℕ) (res : List (Option ℚ))
    (hW : 20 ≤ W) (hres : rolling_apply W 20 percentile_rank xs = .ok res)
    (hi : i < xs.length) :
    windowAt W xs i = (xs.take (i + 1)).drop (i + 1 - W) ∧
    (windowAt W xs i).length = min (i + 1) W ∧
    res[i]? = some (
      if (windowAt W xs i).length < 20 then none
      else some (100 * (((windowAt W xs i).filter (fun x => decide (x ≤ xs[i]))).length : ℚ) /
        ((windowAt W xs i).length : ℚ))) := by
  refine ⟨rfl, windowAt_length W xs i hi, ?_⟩
  unfold rolling_apply at hres
  rw [if_neg (by omega)] at hres
  injection hres with hres
  subst hres
  have hb : i < ((List.range xs.length).map (fun k =>
      if (windowAt W xs k).length < 20 then none else percentile_rank (windowAt W xs k))).length := by
    simpa using hi
  rw [List.getElem?_eq_getElem hb, List.getElem_map, List.getElem_range]
  by_cases hc : (windowAt W xs i).length < 20
  · rw [if_pos hc, if_pos hc]
  · rw [if_neg hc, if_neg hc]
    have hlast := windowAt_getLast W xs i hi (by omega)
    rw [percentile_rank_eq (windowAt W xs i) (xs[i]) hc hlast]
    have harith : (((windowAt W xs i).filter (fun x => decide (x ≤ xs[i]))).length : ℚ) /
        ((windowAt W xs i).length : ℚ) * 100 =
        100 * (((windowAt W xs i).filter (fun x => decide (x ≤ xs[i]))).length : ℚ) /
        ((windowAt W xs i).length : ℚ) := by
      ring
    rw [harith]

/-- C1 witness: 20 equal ATR values, `W = 20`, index 19: the window is the
whole series of length `min 20 20 = 20` and the element is the defined
empirical rank. -/
theorem rolling_percentile_rank_spec_witness :
    windowAt 20 (List.replicate 20 (0 : ℚ)) 19 =
      ((List.replicate 20 (0 : ℚ)).take (19 + 1)).drop (19 + 1 - 20) ∧
    (windowAt 20 (List.replicate 20 (0 : ℚ)) 19).length = min (19 + 1) 20 ∧
    ((List.range (List.replicate 20 (0 : ℚ)).length).map (fun k =>
        if (windowAt 20 (List.replicate 20 (0 : ℚ)) k).length < 20 then none
        else percentile_rank (windowAt 20 (List.replicate 20 (0 : ℚ)) k)))[19]? =
      some (
        if (windowAt 20 (List.replicate 20 (0 : ℚ)) 19).length < 20 then none
        else some (100 * (((windowAt 20 (List.replicate 20 (0 : ℚ)) 19).filter
            (fun x => decide (x ≤ (List.replicate 20 (0 : ℚ))[19]))).length : ℚ) /
          ((windowAt 20 (List.replicate 20 (0 : ℚ)) 19).length : ℚ))) :=
  rolling_percentile_rank_spec (List.replicate 20 (0 : ℚ)) 20 19 _ (by decide) rfl (by decide)

/-! ## Lemmas for True Range indexing and lengths -/

theorem shiftOne_length (xs : List ℚ) : (shiftOne xs).length = xs.length := by
  simp [shiftOne]

theorem shiftOne_getElem? (xs : List ℚ) (i : ℕ) (h : i < xs.length) :
    (shiftOne xs)[i]? = some (if i = 0 then none else some xs[i - 1]) := by
  unfold shiftOne
  rw [List.getElem?_dropLast, if_pos (by simp; omega)]
  cases i with
  | zero => simp
  | succ j =>
    rw [List.getElem?_cons_succ, List.getElem?_map,
      List.getElem?_eq_getElem (show j < xs.length by omega)]
    simp

theorem shiftOne_getElem (xs : List ℚ) (i : ℕ) (h : i < xs.length)
    (hb : i < (shiftOne xs).length) :
    (shiftOne xs)[i] = if i = 0 then none else some xs[i - 1] := by
  have h1 := shiftOne_getElem? xs i h
  rw [List.getElem?_eq_getElem hb] at h1
  exact Option.some.inj h1

theorem zipWith3_length {α β γ δ : Type} (f : α → β → γ → δ) :
    ∀ (as : List α) (bs : List β) (cs : List γ),
      (zipWith3 f as bs cs).length = min as.length (min bs.length cs.length)
  | [], bs, cs => by simp [zipWith3]
  | a :: as, [], cs => by simp [zipWith3]
  | a :: as, b :: bs, [] => by simp [zipWith3]
  | a :: as, b :: bs, c :: cs => by
    simp [zipWith3, zipWith3_length f as bs cs]
    omega

theorem zipWith3_getElem? {α β γ δ : Type} (f : α → β → γ → δ) (as : List α) :
    ∀ (bs : List β) (cs : List γ) (i : ℕ)
      (h1 : i < as.length) (h2 : i < bs.length) (h3 : i < cs.length),
      (zipWith3 f as bs cs)[i]? = some (f as[i] bs[i] cs[i]) := by
  induction as with
  | nil => intro bs cs i h1 h2 h3; simp at h1
  | cons a as ih =>
    intro bs cs i h1 h2 h3
    cases bs with
    | nil => simp at h2
    | cons b bs =>
      cases cs with
      | nil => simp at h3
      | cons c cs =>
        cases i with
        | zero => simp [zipWith3]
        | succ j =>
          simp only [zipWith3, List.getElem?_cons_succ, List.getElem_cons_succ]
          exact ih bs cs j (by simpa using h1) (by simpa using h2) (by simpa using h3)

theorem trueRangeSeries_length (high low close : List ℚ)
    (hl : low.length = high.length) (hc : close.length = high.length) :
    (trueRangeSeries high low close).length = high.length := by
  unfold trueRangeSeries
  rw [zipWith3_length]
  simp only [List.length_zipWith, shiftOne_length]
  omega

/-! ## C3: the True Range values -/

/-- C3: for every price series, `TrueRange[0] = High[0] − Low[0]` (bar 0 only),
and for `i > 0`,
`TrueRange[i] = max(High[i]−Low[i], |High[i]−Close[i−1]|, |Low[i]−Close[i−1]|)`. -/
theorem true_range_spec (high low close : List ℚ) (i : ℕ)
    (hl : low.length = high.length) (hc : close.length = high.length)
    (hi : i < high.length) :
    (trueRangeSeries high low close)[i]? =
      some (if i = 0 then high[0] - low[0]
        else max (high[i] - low[i])
          (max |high[i] - close[i - 1]| |low[i] - close[i - 1]|)) := by
  unfold trueRangeSeries
  have hb1 : i < (List.zipWith (fun h l => h - l) high low).length := by
    simp only [List.length_zipWith]; omega
  have hb2 : i < (List.zipWith (fun h c => c.map (fun p => |h - p|)) high (shiftOne close)).length := by
    simp only [List.length_zipWith, shiftOne_length]; omega
  have hb3 : i < (List.zipWith (fun l c => c.map (fun p => |l - p|)) low (shiftOne close)).length := by
    simp only [List.length_zipWith, shiftOne_length]; omega
  rw [zipWith3_getElem? rowMax _ _ _ i hb1 hb2 hb3]
  rw [List.getElem_zipWith, List.getElem_zipWith, List.getElem_zipWith]
  rw [shiftOne_getElem close i (by omega) (by rw [shiftOne_length]; omega)]
  by_cases h0 : i = 0
  · subst h0
    simp [rowMax]
  · simp [rowMax, h0]

/-- C3 witness: on the two-bar series High = [2, 5], Low = [1, 2],
Close = [1, 4], index 1 carries `max(High[1]−Low[1], |High[1]−Close[0]|,
|Low[1]−Close[0]|)`. -/
theorem true_range_spec_witness :
    (trueRangeSeries [2, 5] [1, 2] [1, 4])[1]? =
      some (if 1 = 0 then ([2, 5] : List ℚ)[0] - ([1, 2] : List ℚ)[0]
        else max (([2, 5] : List ℚ)[1] - ([1, 2] : List ℚ)[1])
          (max |([2, 5] : List ℚ)[1] - ([1, 4] : List ℚ)[1 - 1]|
            |([1, 2] : List ℚ)[1] - ([1, 4] : List ℚ)[1 - 1]|)) :=
  true_range_spec [2, 5] [1, 2] [1, 4] 1 rfl rfl (by decide)

/-! ## C8: all series have the input length -/

/-- C8: for every valid price series and valid parameters, the True Range,
ATR and percentile series all have exactly the input length, preserving index
alignment. -/
theorem series_length_invariant (high low close : List ℚ) (L : ℤ) (W : ℕ)
    (hL : 1 ≤ L) (hW : 20 ≤ W)
    (hl : low.length = high.length) (hc : close.length = high.length) :
    ∃ (atr : List ℚ) (pct : List (Option ℚ)),
      calculate_atr_percentile high low close L W = .ok (atr, pct) ∧
      (trueRangeSeries high low close).length = high.length ∧
      atr.length = high.length ∧ pct.length = high.length := by
  have h1 : ¬ L ≤ 0 := by omega
  have h2 : ¬ W < 20 := by omega
  simp only [calculate_atr_percentile, rolling_apply, if_neg h1, if_neg h2]
  refine ⟨_, _, rfl, trueRangeSeries_length high low close hl hc, ?_, ?_⟩
  · rw [ewmMean_length, trueRangeSeries_length high low close hl hc]
  · simp only [List.length_map, List.length_range, ewmMean_length]
    exact trueRangeSeries_length high low close hl hc

/-- C8 witness: a one-bar series with `L = 1`, `W = 20` succeeds and every
series has length 1. -/
theorem series_length_invariant_witness :
    ∃ (atr : List ℚ) (pct : List (Option ℚ)),
      calculate_atr_percentile [(2 : ℚ)] [1] [1] 1 20 = .ok (atr, pct) ∧
      (trueRangeSeries [(2 : ℚ)] [1] [1]).length = ([(2 : ℚ)] : List ℚ).length ∧
      atr.length = ([(2 : ℚ)] : List ℚ).length ∧ pct.length = ([(2 : ℚ)] : List ℚ).length :=
  series_length_invariant [(2 : ℚ)] [1] [1] 1 20 (by decide) (by decide) rfl rfl

/-! ## C10: frame effect of the pipeline -/

theorem setCol_fresh : ∀ (df : Frame) (n : String) (v : List (Option ℚ)),
    (∀ p ∈ df, p.1 ≠ n) → setCol df n v = df ++ [(n, v)]
  | [], n, v, _ => rfl
  | (m, w) :: df, n, v, h => by
    have hm : m ≠ n := h (m, w) (by simp)
    simp [setCol, hm, setCol_fresh df n v (fun p hp => h p (by simp [hp]))]

theorem setCol_fresh_chain (df tail : Frame) (n : String) (v : List (Option ℚ))
    (h1 : ∀ p ∈ df, p.1 ≠ n) (h2 : ∀ p ∈ tail, p.1 ≠ n) :
    setCol (df ++ tail) n v = df ++ (tail ++ [(n, v)]) := by
  have hall : ∀ p ∈ df ++ tail, p.1 ≠ n := by
    intro p hp
    rcases List.mem_append.mp hp with h | h
    exacts [h1 p h, h2 p h]
  rw [setCol_fresh (df ++ tail) n v hall, List.append_assoc]

theorem fst_ne_of_names (tail : Frame) (names : List String) (n : String)
    (hnames : tail.map Prod.fst = names) (hn : n ∉ names) : ∀ p ∈ tail, p.1 ≠ n := by
  intro p hp h
  apply hn
  rw [← hnames, ← h]
  exact List.mem_map_of_mem Prod.fst hp

theorem dropCols_append (a b : Frame) (ns : List String) :
    dropCols (a ++ b) ns = dropCols a ns ++ dropCols b ns := by
  unfold dropCols
  exact List.filter_append a b

theorem dropCols_of_not_mem (df : Frame) (ns : List String)
    (h : ∀ p ∈ df, p.1 ∉ ns) : dropCols df ns = df := by
  unfold dropCols
  rw [List.filter_eq_self]
  intro p hp
  simpa using h p hp

theorem dropCols_tmp (v1 v2 v3 v4 v5 v6 : List (Option ℚ)) :
    dropCols [("tr1", v1), ("tr2", v2), ("tr3", v3), ("tr", v4), ("atr", v5), ("atr_percentile", v6)]
      ["tr1", "tr2", "tr3", "tr"] = [("atr", v5), ("atr_percentile", v6)] := rfl

theorem frame_pipeline_cols (df : Frame) (v1 v2 v3 v4 v5 v6 : List (Option ℚ))
    (hfresh : ∀ p ∈ df, p.1 ∉ (["tr1", "tr2", "tr3", "tr", "atr", "atr_percentile"] : List String)) :
    dropCols (setCol (setCol (setCol (setCol (setCol (setCol df "tr1" v1) "tr2" v2)
        "tr3" v3) "tr" v4) "atr" v5) "atr_percentile" v6) ["tr1", "tr2", "tr3", "tr"] =
      df ++ [("atr", v5), ("atr_percentile", v6)] := by
  have hne : ∀ p ∈ df, p.1 ≠ "tr1" ∧ p.1 ≠ "tr2" ∧ p.1 ≠ "tr3" ∧ p.1 ≠ "tr" ∧
      p.1 ≠ "atr" ∧ p.1 ≠ "atr_percentile" := by
    intro p hp
    simpa using hfresh p hp
  rw [setCol_fresh df "tr1" v1 (fun p hp => (hne p hp).1),
    setCol_fresh_chain df [("tr1", v1)] "tr2" v2 (fun p hp => (hne p hp).2.1)
      (fst_ne_of_names [("tr1", v1)] ["tr1"] "tr2" rfl (by decide)),
    setCol_fresh_chain df ([("tr1", v1)] ++ [("tr2", v2)]) "tr3" v3 (fun p hp => (hne p hp).2.2.1)
      (fst_ne_of_names _ ["tr1", "tr2"] "tr3" rfl (by decide)),
    setCol_fresh_chain df (([("tr1", v1)] ++ [("tr2", v2)]) ++ [("tr3", v3)]) "tr" v4
      (fun p hp => (hne p hp).2.2.2.1)
      (fst_ne_of_names _ ["tr1", "tr2", "tr3"] "tr" rfl (by decide)),
    setCol_fresh_chain df ((([("tr1", v1)] ++ [("tr2", v2)]) ++ [("tr3", v3)]) ++ [("tr", v4)])
      "atr" v5 (fun p hp => (hne p hp).2.2.2.2.1)
      (fst_ne_of_names _ ["tr1", "tr2", "tr3", "tr"] "atr" rfl (by decide)),
    setCol_fresh_chain df (((([("tr1", v1)] ++ [("tr2", v2)]) ++ [("tr3", v3)]) ++ [("tr", v4)]) ++ [("atr", v5)])
      "atr_percentile" v6 (fun p hp => (hne p hp).2.2.2.2.2)
      (fst_ne_of_names _ ["tr1", "tr2", "tr3", "tr", "atr"] "atr_percentile" rfl (by decide))]
  simp only [List.singleton_append, List.cons_append, List.nil_append]
  rw [dropCols_append, dropCols_of_not_mem df _ (fun p hp => by
      have h := hne p hp
      simp only [List.mem_cons, List.not_mem_nil, or_false]
      push_neg
      exact ⟨h.1, h.2.1, h.2.2.1, h.2.2.2.1⟩),
    dropCols_tmp]

/-- C10 counterexample: the claim fails for an input frame that already has a
column named `tr1`: High = [2], Low = [1], Close = [1] plus a column
`tr1 = [99]`.  The function overwrites `tr1` in place and then drops it, so
the returned frame does not contain all original columns — `tr1` is gone. -/
theorem frame_columns_counterexample :
    List.lookup "tr1"
        ([("High", [some 2]), ("Low", [some 1]), ("Close", [some 1]),
          ("tr1", [some 99])] : Frame) = some [some 99] ∧
    calculate_atr_percentile_frame
        [("High", [some 2]), ("Low", [some 1]), ("Close", [some 1]), ("tr1", [some 99])] 1 20 =
      .ok [("High", [some 2]), ("Low", [some 1]), ("Close", [some 1]),
        ("atr", [some 1]), ("atr_percentile", [none])] ∧
    List.lookup "tr1"
        ([("High", [some 2]), ("Low", [some 1]), ("Close", [some 1]),
          ("atr", [some 1]), ("atr_percentile", [none])] : Frame) = none := by
  refine ⟨rfl, ?_, rfl⟩
  simp [calculate_atr_percentile_frame, getCol, setCol, dropCols, denone,
    rolling_apply, windowAt, percentile_rank, List.lookup, trueRangeSeries,
    zipWith3, shiftOne, rowMax, ewmMean, ewmFrom, List.range_succ]
  norm_num

/-- C10 amended: for input frames that contain none of the reserved working or
output column names (`tr1`, `tr2`, `tr3`, `tr`, `atr`, `atr_percentile`) and
valid parameters, the returned frame is exactly the original columns, values
unchanged and in order, plus the two appended columns `atr` and
`atr_percentile`; the four temporary columns are absent.  The frame held by
the caller is untouched: the source operates on `df.copy()`, which the pure embedding
reflects. -/
theorem frame_columns_spec (df : Frame) (L : ℤ) (W : ℕ)
    (hL : 1 ≤ L) (hW : 20 ≤ W)
    (hfresh : ∀ p ∈ df, p.1 ∉ (["tr1", "tr2", "tr3", "tr", "atr", "atr_percentile"] : List String)) :
    ∃ atrCol pctCol,
      calculate_atr_percentile_frame df L W =
        .ok (df ++ [("atr", atrCol), ("atr_percentile", pctCol)]) := by
  have h1 : ¬ L ≤ 0 := by omega
  have h2 : ¬ W < 20 := by omega
  simp only [calculate_atr_percentile_frame, rolling_apply, if_neg h1, if_neg h2]
  rw [frame_pipeline_cols df _ _ _ _ _ _ hfresh]
  exact ⟨_, _, rfl⟩

/-- C10 witness: a one-bar OHLC frame without reserved column names gets
exactly the two columns appended. -/
theorem frame_columns_spec_witness :
    ∃ atrCol pctCol,
      calculate_atr_percentile_frame
          [("High", [some 2]), ("Low", [some 1]), ("Close", [some 1])] 1 20 =
        .ok ([("High", [some 2]), ("Low", [some 1]), ("Close", [some 1])] ++
          [("atr", atrCol), ("atr_percentile", pctCol)]) :=
  frame_columns_spec [("High", [some 2]), ("Low", [some 1]), ("Close", [some 1])] 1 20
    (by decide) (by decide) (by decide)

end ATRPercentile

